import Mathlib

/-!
SecureC: bounded string wrappers and the unsafe-call barrier.

A shallow embedding of `safe_wrappers/safe_functions.c` and
`enforcement/ban_unsafe.h`.

* A byte is its numeric value; `'\0'` is `0` and `'\n'` is `10`.
* The memory reached through a `char *` is a function from the offset to the
  byte stored there.  Offsets are not bounded, so a store past the declared
  capacity of a buffer is visible as a changed byte at that offset.
* A source string is the list of bytes of the object the `const char *`
  points into; it is NUL-terminated when `0` occurs in it.  Reading past the
  end of that object is undefined behaviour, rendered as `none`.
* `size_t` is `w` bits wide: `size - 1` is computed modulo `2 ^ w`.
* `int` is 32 bits wide in two's complement: the `size_t` capacity that
  `safe_input` hands to the `int` parameter of `fgets` is reduced modulo
  `2 ^ 32` into the range of `int`.
* `stdin` is the list of bytes still to be read; it is at end-of-input when the
  list is empty.
* The C library routines the wrappers call (`strncpy`, `vsnprintf`, `fgets`,
  `strcspn`) follow their description in the C standard.
-/

namespace SecureC

/-! ## The wrappers of `safe_functions.c` and the C library calls they make -/

/-- A byte, by its numeric value. -/
abbrev Byte := Nat

/-- The bytes reached through a `char *`, by offset. -/
abbrev Mem := Nat → Byte

/-- The line terminator `'\n'`. -/
def NL : Byte := 10

/-- The assignment `m[i] = b`. -/
def poke (m : Mem) (i : Nat) (b : Byte) : Mem :=
  fun j => if j = i then b else m j

/-- Consecutive stores of the bytes `bs` from offset `i` on. -/
def pokeAll (m : Mem) (i : Nat) : List Byte → Mem
  | [] => m
  | b :: bs => pokeAll (poke m i b) (i + 1) bs

/-- The characters of a source string: the bytes before its first NUL. -/
def content (src : List Byte) : List Byte :=
  src.takeWhile (fun b => b != 0)

/-- The string stored at offset `i`, looking at `fuel` bytes at most: the
bytes before the first NUL, or `none` when none of the `fuel` bytes is NUL. -/
def cstringAt (m : Mem) (i : Nat) : Nat → Option (List Byte)
  | 0 => none
  | fuel + 1 =>
    if m i = 0 then some [] else (cstringAt m (i + 1) fuel).map (fun l => m i :: l)

/-- The string a buffer of `cap` bytes holds, `none` when the buffer has no
terminator among its `cap` bytes. -/
def cstring (m : Mem) (cap : Nat) : Option (List Byte) :=
  cstringAt m 0 cap

/-- The tail of `strncpy`: `n` null bytes from offset `i` on. -/
def zeroFill (m : Mem) (i : Nat) : Nat → Mem
  | 0 => m
  | n + 1 => zeroFill (poke m i 0) (i + 1) n

/-- The loop of `strncpy` at offset `i` with `n` bytes still to write: bytes
are copied up to the NUL of the source, then null bytes are appended until
`n` bytes in all have been written. -/
def strncpyAt (dest : Mem) (i : Nat) : List Byte → Nat → Option Mem
  | _, 0 => some dest
  | [], _ + 1 => none
  | b :: s, n + 1 =>
    if b = 0 then some (zeroFill dest i (n + 1))
    else strncpyAt (poke dest i b) (i + 1) s n

/-- The call `strncpy(dest, src, n)`. -/
def strncpy (dest : Mem) (src : List Byte) (n : Nat) : Option Mem :=
  strncpyAt dest 0 src n

/-- The expression `size - 1` in `size_t`. -/
def sizeMinusOne (w size : Nat) : Nat :=
  (size + 2 ^ w - 1) % 2 ^ w

/-- The function `safe_strcpy`:
`strncpy(dest, src, size - 1); dest[size - 1] = '\0';`. -/
def safe_strcpy (w : Nat) (dest : Mem) (src : List Byte) (size : Nat) : Option Mem :=
  (strncpy dest src (sizeMinusOne w size)).map
    (fun d => poke d (sizeMinusOne w size) 0)

/-- What `safe_strcpy` leaves in memory when the source is NUL-terminated. -/
def copied (dest : Mem) (src : List Byte) (n : Nat) : Mem :=
  fun j => if j < n then (content src).getD j 0 else if j = n then 0 else dest j

/-- The source of the demo program, `"Ayushman"` with its terminator. -/
def ayushman : List Byte := [65, 121, 117, 115, 104, 109, 97, 110, 0]

/-- The formatted-output engine of the C library, which is not part of the
repository: the bytes a template renders to with arguments of type `α`, or
`none` when template and arguments do not match (undefined behaviour). -/
abbrev Formatter (α : Type) := List Byte → α → Option (List Byte)

/-- The call `vsnprintf(dest, n, format, args)`: nothing is written when `n`
is zero; otherwise the output beyond the `n - 1`st byte is discarded and a
null byte follows the bytes written. -/
def vsnprintf {α : Type} (fmt : Formatter α) (dest : Mem) (n : Nat) (format : List Byte)
    (args : α) : Option Mem :=
  match fmt format args with
  | none => none
  | some r => if n = 0 then some dest else some (pokeAll dest 0 (r.take (n - 1) ++ [0]))

/-- The function `safe_sprintf`: `vsnprintf(dest, size, format, args);`
between `va_start` and `va_end`. -/
def safe_sprintf {α : Type} (fmt : Formatter α) (dest : Mem) (size : Nat)
    (format : List Byte) (args : α) : Option Mem :=
  vsnprintf fmt dest size format args

/-- The fragment of the formatting engine with ordinary characters, `%%` and
`%s`, whose arguments are NUL-terminated strings. -/
def formatS : Formatter (List (List Byte))
  | [], _ => some []
  | 37 :: 115 :: t, a :: as => (formatS t as).map (fun r => content a ++ r)
  | 37 :: 37 :: t, as => (formatS t as).map (fun r => 37 :: r)
  | 37 :: _, _ => none
  | c :: t, as => (formatS t as).map (fun r => c :: r)

/-- The template `"Hi %s"`. -/
def hiTemplate : List Byte := [72, 105, 32, 37, 115]

/-- The argument `"Bo"` with its terminator. -/
def bo : List Byte := [66, 111, 0]

/-- Conversion of a `size_t` value to the `int` parameter of `fgets`, for a
32-bit two's complement `int`. -/
def toInt (size : Nat) : Int :=
  if size % 2 ^ 32 < 2 ^ 31 then ((size % 2 ^ 32 : Nat) : Int)
  else ((size % 2 ^ 32 : Nat) : Int) - 2 ^ 32

/-- A read of at most `k` bytes that stops after a line terminator or when the
input ends: the bytes read and the rest of the stream. -/
def readLine : Nat → List Byte → List Byte × List Byte
  | 0, s => ([], s)
  | _ + 1, [] => ([], [])
  | k + 1, b :: s =>
    if b = NL then ([b], s) else (b :: (readLine k s).1, (readLine k s).2)

/-- What a call of `fgets` leaves: the buffer, the stream, and whether the
returned pointer is non-null. -/
structure FgetsResult where
  buf : Mem
  stream : List Byte
  ok : Bool

/-- The call `fgets(s, n, stream)` on a stream without read errors: at most
`n - 1` bytes are read, none after a line terminator, and a null byte is stored
after the last byte read.  At end-of-input with no byte read the buffer is
left as it was and the null pointer is returned; so it is for `n ≤ 0`. -/
def fgets (s : Mem) (n : Int) (stream : List Byte) : FgetsResult :=
  if n ≤ 0 then ⟨s, stream, false⟩
  else if 1 < n ∧ stream = [] then ⟨s, stream, false⟩
  else ⟨pokeAll s 0 ((readLine (n.toNat - 1) stream).1 ++ [0]),
        (readLine (n.toNat - 1) stream).2, true⟩

/-- The scan of `strcspn` from offset `i` over `fuel` bytes at most: the
number of bytes before the first one that is NUL or in `reject`. -/
def strcspnAt (m : Mem) (reject : List Byte) (i : Nat) : Nat → Option Nat
  | 0 => none
  | fuel + 1 =>
    if m i = 0 ∨ m i ∈ reject then some 0
    else (strcspnAt m reject (i + 1) fuel).map (fun k => k + 1)

/-- The call `strcspn(s, reject)` on an object of `ext` bytes; running off the
object is undefined behaviour, `none`. -/
def strcspn (ext : Nat) (m : Mem) (reject : List Byte) : Option Nat :=
  strcspnAt m reject 0 ext

/-- The function `safe_input`:
`fgets(buffer, size, stdin); buffer[strcspn(buffer, "\n")] = '\0';`
on a buffer that is part of an object of `ext` bytes.  The capacity is
converted to the `int` that `fgets` takes, and the result of `fgets` is not
looked at.  Returns the buffer and what is left of `stdin`. -/
def safe_input (ext : Nat) (buffer : Mem) (size : Nat) (stdin : List Byte) :
    Option (Mem × List Byte) :=
  (strcspn ext (fgets buffer (toInt size) stdin).buf [NL]).map
    (fun k => (poke (fgets buffer (toInt size) stdin).buf k 0,
               (fgets buffer (toInt size) stdin).stream))

/-- A caller, not part of the repository, that reads one line in pieces:
`safe_input` with the same capacity again and again, up to and including the
first call that consumes a line terminator; returns the strings of the calls
put end to end and what is left of `stdin`.  `fuel` bounds the number of
calls. -/
def inputLine (ext : Nat) (size : Nat) : Nat → Mem → List Byte → Option (List Byte × List Byte)
  | 0, _, _ => none
  | fuel + 1, buffer, stdin =>
    match safe_input ext buffer size stdin with
    | none => none
    | some (b, rest) =>
      match cstring b size with
      | none => none
      | some piece =>
        if (stdin.take (stdin.length - rest.length)).getLast? = some NL then
          some (piece, rest)
        else
          (inputLine ext size fuel b rest).map (fun r => (piece ++ r.1, r.2))

/-- A buffer that holds the string `"hi"`. -/
def hiBuffer : Mem := pokeAll (fun _ => 0) 0 [104, 105]

end SecureC

namespace SecureC.BanUnsafe

/-! ## The unsafe-call barrier, `ban_unsafe.h` -/

/-- A preprocessing token: a string literal, by its characters, or any other
token (identifier, keyword, number, punctuator), by its spelling. -/
inductive Tok
  | word (s : String)
  | str (s : String)
  deriving DecidableEq

/-- The characters of a token. -/
def Tok.text : Tok → String
  | .word s => s
  | .str s => s

/-- The macro `BLOCK_USE_OF(x)` for an argument `x` that is an identifier or
empty, given by its spelling.  `stdc` is the value of
`__STDC_VERSION__`, 0 when the compiler does not define it.  From C11 on:
`_Static_assert(0, #x " is unsafe. Use a safer alternative.")`; before:
`typedef char BLOCK_##x##_is_unsafe[-1]`. -/
def BLOCK_USE_OF (stdc : Nat) (x : String) : List Tok :=
  if 201112 ≤ stdc then
    [.word "_Static_assert", .word "(", .word "0", .word ",", .str x,
     .str " is unsafe. Use a safer alternative.", .word ")"]
  else
    [.word "typedef", .word "char", .word ("BLOCK_" ++ x ++ "_is_unsafe"),
     .word "[", .word "-", .word "1", .word "]"]

/-- The macro `strcpy(...)`. -/
def strcpy (stdc : Nat) (_args : List String) : List Tok := BLOCK_USE_OF stdc "strcpy"

/-- The macro `gets(...)`. -/
def gets (stdc : Nat) (_args : List String) : List Tok := BLOCK_USE_OF stdc "gets"

/-- The macro `sprintf(...)`. -/
def sprintf (stdc : Nat) (_args : List String) : List Tok := BLOCK_USE_OF stdc "sprintf"

/-- The macro `strcat(...)`. -/
def strcat (stdc : Nat) (_args : List String) : List Tok := BLOCK_USE_OF stdc "strcat"

/-- The macro `strncpy(...)`. -/
def strncpy (stdc : Nat) (_args : List String) : List Tok := BLOCK_USE_OF stdc "strncpy"

/-- What the header makes of a call `name(args)`. -/
inductive Expansion
  | notMacro
  | illFormed
  | tokens (ts : List Tok)
  deriving DecidableEq

/-- The tokens of an argument list `(a, b, ...)`, each argument given by its
spelling. -/
def argList (args : List String) : List Tok :=
  .word "(" :: (args.map Tok.word).intersperse (.word ",") ++ [.word ")"]

/-- The macros of the implementation's `<assert.h>`, which is not part of the
repository: for a name, the replacement of a call of it, or `none` when
`<assert.h>` defines no macro of that name. -/
abbrev AssertH := String → Option (List String → List Tok)

/-- The two macros the C standard gives `<assert.h>`, with `NDEBUG` defined:
`#define assert(ignore) ((void)0)` and `#define static_assert _Static_assert`,
an object-like macro after which the argument list stays. -/
def stdAssertH : AssertH := fun name =>
  if name = "assert" then
    some (fun _ => [.word "(", .word "(", .word "void", .word ")", .word "0", .word ")"])
  else if name = "static_assert" then
    some (fun args => .word "_Static_assert" :: argList args)
  else none

/-- The replacement of the call `name(args)`, each argument given by its
spelling, once the header is included.  The header defines the include guard
`BAN_UNSAFE_H`, an object-like macro with an empty replacement list, after
which the argument list stays; under C11 it includes `<assert.h>`, whose
macros are `lib`; it defines the one-parameter macro `BLOCK_USE_OF`, for which
empty parentheses are one empty argument and more than one argument is an
error, and the five function-like macros of the banned names.  A definition
of the header, which comes later, stands before one of `<assert.h>`. -/
def expandCall (lib : AssertH) (stdc : Nat) (name : String) (args : List String) :
    Expansion :=
  if name = "BAN_UNSAFE_H" then .tokens (argList args)
  else if name = "BLOCK_USE_OF" then
    match args with
    | [] => .tokens (BLOCK_USE_OF stdc "")
    | [x] => .tokens (BLOCK_USE_OF stdc x)
    | _ => .illFormed
  else if name = "strcpy" then .tokens (strcpy stdc args)
  else if name = "gets" then .tokens (gets stdc args)
  else if name = "sprintf" then .tokens (sprintf stdc args)
  else if name = "strcat" then .tokens (strcat stdc args)
  else if name = "strncpy" then .tokens (strncpy stdc args)
  else if 201112 ≤ stdc then
    match lib name with
    | some body => .tokens (body args)
    | none => .notMacro
  else .notMacro

/-- The five banned names. -/
def banned : List String := ["strcpy", "gets", "sprintf", "strcat", "strncpy"]

/-- Declarations that violate a constraint of C whatever surrounds them: a
static assertion whose constant expression is `0`, and a `typedef` of an array
of `char` of size `-1`. -/
def neverCompiles : List Tok → Bool
  | .word "_Static_assert" :: .word "(" :: .word "0" :: .word "," :: _ => true
  | [.word "typedef", .word "char", .word _, .word "[", .word "-", .word "1", .word "]"] =>
    true
  | _ => false

/-- Whether some token of `ts` has `name` among its characters. -/
def mentions (ts : List Tok) (name : String) : Prop :=
  ∃ t ∈ ts, name.data <:+: t.text.data

instance (ts : List Tok) (name : String) : Decidable (mentions ts name) := by
  unfold mentions
  infer_instance

end SecureC.BanUnsafe

namespace SecureC

/-! ## Theorems on the wrappers -/

@[simp] theorem poke_apply (m : Mem) (i : Nat) (b : Byte) (j : Nat) :
    poke m i b j = if j = i then b else m j := rfl

theorem zeroFill_apply (n : Nat) : ∀ (m : Mem) (i j : Nat),
    zeroFill m i n j = if i ≤ j ∧ j < i + n then 0 else m j := by
  induction n with
  | zero =>
    intro m i j
    have h : ¬ (i ≤ j ∧ j < i + 0) := by omega
    simp only [zeroFill, if_neg h]
  | succ n ih =>
    intro m i j
    simp only [zeroFill, ih, poke_apply]
    split_ifs <;> first | rfl | (exfalso; omega)

theorem getD_cons_shift (b : Byte) (l : List Byte) (i j : Nat) (h : i + 1 ≤ j) :
    (b :: l).getD (j - i) 0 = l.getD (j - (i + 1)) 0 := by
  have h5 : j - i = (j - (i + 1)) + 1 := by omega
  rw [h5, List.getD_cons_succ]

theorem pokeAll_apply (bs : List Byte) : ∀ (m : Mem) (i j : Nat),
    pokeAll m i bs j = if i ≤ j ∧ j < i + bs.length then bs.getD (j - i) 0 else m j := by
  induction bs with
  | nil =>
    intro m i j
    have h : ¬ (i ≤ j ∧ j < i + 0) := by omega
    simp only [pokeAll, List.length_nil, if_neg h]
  | cons b bs ih =>
    intro m i j
    simp only [pokeAll, ih, poke_apply, List.length_cons]
    by_cases h1 : j = i
    · subst h1
      have h2 : ¬ (j + 1 ≤ j ∧ j < j + 1 + bs.length) := by omega
      have h3 : j ≤ j ∧ j < j + (bs.length + 1) := by omega
      rw [if_neg h2, if_pos h3, if_pos rfl, Nat.sub_self, List.getD_cons_zero]
    · by_cases h2 : i + 1 ≤ j
      · rw [getD_cons_shift b bs i j h2]
        split_ifs <;> first | rfl | (exfalso; omega)
      · have h3 : ¬ (i + 1 ≤ j ∧ j < i + 1 + bs.length) := by omega
        have h4 : ¬ (i ≤ j ∧ j < i + (bs.length + 1)) := by omega
        rw [if_neg h3, if_neg h4, if_neg h1]

theorem content_cons_zero (s : List Byte) : content (0 :: s) = [] := by
  simp [content, List.takeWhile_cons]

theorem content_cons_ne (b : Byte) (s : List Byte) (hb : b ≠ 0) :
    content (b :: s) = b :: content s := by
  simp [content, List.takeWhile_cons, hb]

theorem content_nonzero (src : List Byte) : ∀ b ∈ content src, b ≠ 0 := by
  intro b hb
  have := List.mem_takeWhile_imp hb
  simpa using this

theorem content_length_lt (src : List Byte) (h : 0 ∈ src) :
    (content src).length < src.length := by
  induction src with
  | nil => simp at h
  | cons b s ih =>
    by_cases hb : b = 0
    · subst hb; simp [content_cons_zero]
    · have hs : 0 ∈ s := by
        rcases List.mem_cons.mp h with h0 | h0
        · exact absurd h0.symm hb
        · exact h0
      have := ih hs
      rw [content_cons_ne b s hb]
      simpa using this

/-- Closed form of the `strncpy` loop. -/
theorem strncpyAt_eq (src : List Byte) : ∀ (dest : Mem) (i n : Nat),
    (0 ∈ src ∨ n ≤ src.length) →
    strncpyAt dest i src n
      = some (fun j => if i ≤ j ∧ j < i + n then (content src).getD (j - i) 0 else dest j) := by
  induction src with
  | nil =>
    intro dest i n h
    have hn : n = 0 := by simpa using h
    subst hn
    simp only [strncpyAt, Option.some.injEq]
    funext j
    have h : ¬ (i ≤ j ∧ j < i + 0) := by omega
    rw [if_neg h]
  | cons b s ih =>
    intro dest i n h
    cases n with
    | zero =>
      simp only [strncpyAt, Option.some.injEq]
      funext j
      have h : ¬ (i ≤ j ∧ j < i + 0) := by omega
      rw [if_neg h]
    | succ n =>
      by_cases hb : b = 0
      · subst hb
        simp only [strncpyAt, if_true, Option.some.injEq]
        funext j
        simp only [zeroFill_apply, content_cons_zero, List.getD_nil]
      · have hs : 0 ∈ s ∨ n ≤ s.length := by
          rcases h with h | h
          · left
            rcases List.mem_cons.mp h with h0 | h0
            · exact absurd h0.symm hb
            · exact h0
          · right; simpa using h
        simp only [strncpyAt, hb, if_false, ih _ _ _ hs, Option.some.injEq]
        funext j
        rw [content_cons_ne b s hb]
        simp only [poke_apply]
        by_cases h1 : j = i
        · subst h1
          have h2 : ¬ (j + 1 ≤ j ∧ j < j + 1 + n) := by omega
          have h3 : j ≤ j ∧ j < j + (n + 1) := by omega
          rw [if_neg h2, if_pos h3, if_pos rfl, Nat.sub_self, List.getD_cons_zero]
        · by_cases h2 : i + 1 ≤ j
          · rw [getD_cons_shift b _ i j h2]
            split_ifs <;> first | rfl | (exfalso; omega)
          · have h3 : ¬ (i + 1 ≤ j ∧ j < i + 1 + n) := by omega
            have h4 : ¬ (i ≤ j ∧ j < i + (n + 1)) := by omega
            rw [if_neg h3, if_neg h4, if_neg h1]

theorem sizeMinusOne_pos (w size : Nat) (h1 : 1 ≤ size) (h2 : size < 2 ^ w) :
    sizeMinusOne w size = size - 1 := by
  unfold sizeMinusOne
  have : size + 2 ^ w - 1 = (size - 1) + 2 ^ w := by omega
  rw [this, Nat.add_mod_right, Nat.mod_eq_of_lt (by omega)]

theorem sizeMinusOne_zero (w : Nat) : sizeMinusOne w 0 = 2 ^ w - 1 := by
  unfold sizeMinusOne
  have : 0 < 2 ^ w := Nat.pow_pos (by decide)
  rw [Nat.zero_add, Nat.mod_eq_of_lt (by omega)]

theorem safe_strcpy_eq (w : Nat) (dest : Mem) (src : List Byte) (size : Nat)
    (hsrc : 0 ∈ src) :
    safe_strcpy w dest src size = some (copied dest src (sizeMinusOne w size)) := by
  unfold safe_strcpy strncpy
  rw [strncpyAt_eq src dest 0 _ (Or.inl hsrc)]
  simp only [Option.map_some', Option.some.injEq]
  funext j
  simp only [poke_apply, copied, Nat.zero_le, true_and, Nat.zero_add, Nat.sub_zero]
  split_ifs <;> first | rfl | (exfalso; omega)

theorem cstringAt_eq (l : List Byte) : ∀ (m : Mem) (i fuel : Nat),
    (∀ k, k < l.length → m (i + k) = l.getD k 0) → (∀ b ∈ l, b ≠ 0) →
    m (i + l.length) = 0 → l.length < fuel → cstringAt m i fuel = some l := by
  induction l with
  | nil =>
    intro m i fuel _ _ h0 hf
    cases fuel with
    | zero => simp at hf
    | succ fuel =>
      have h0' : m i = 0 := by simpa using h0
      simp only [cstringAt, h0', if_true]
  | cons b l ih =>
    intro m i fuel hm hnz h0 hf
    cases fuel with
    | zero => simp at hf
    | succ fuel =>
      have hb : m i = b := by
        have := hm 0 (by simp)
        simpa using this
      have hbnz : b ≠ 0 := hnz b (List.mem_cons_self _ _)
      have hrec : cstringAt m (i + 1) fuel = some l := by
        apply ih
        · intro k hk
          have := hm (k + 1) (by simpa using hk)
          rw [List.getD_cons_succ] at this
          rw [← this]
          congr 1
          omega
        · intro c hc
          exact hnz c (List.mem_cons_of_mem _ hc)
        · rw [← h0]
          congr 1
          simp only [List.length_cons]
          omega
        · simpa using hf
      simp only [cstringAt, hb, hbnz, if_false, hrec, Option.map_some']

theorem getD_take (l : List Byte) (n k : Nat) (h : k < n) :
    (l.take n).getD k 0 = l.getD k 0 := by
  simp only [List.getD_eq_getElem?_getD, List.getElem?_take, if_pos h]

theorem cstring_copied (dest : Mem) (src : List Byte) (n cap : Nat) (h : n < cap) :
    cstring (copied dest src n) cap = some ((content src).take n) := by
  unfold cstring
  apply cstringAt_eq
  · intro k hk
    have hk' : k < n := by
      have := List.length_take_le n (content src)
      omega
    simp only [copied, Nat.zero_add, if_pos hk', getD_take _ _ _ hk']
  · intro b hb
    exact content_nonzero src b (List.mem_of_mem_take hb)
  · simp only [copied, Nat.zero_add, List.length_take]
    by_cases h1 : n ≤ (content src).length
    · rw [Nat.min_eq_left h1]
      simp
    · have h2 : (content src).length < n := by omega
      rw [Nat.min_eq_right (by omega), if_pos h2]
      exact List.getD_eq_default _ _ (le_refl _)
  · have := List.length_take_le n (content src)
    omega

/-- C1: for a capacity `C ≥ 1` and a NUL-terminated source, `safe_strcpy`
returns, the byte at `C - 1` is the terminator, and the destination holds a
terminated string of at most `C - 1` characters, whatever it held before. -/
theorem safe_strcpy_terminated (w : Nat) (dest : Mem) (src : List Byte) (C : Nat)
    (hC : 1 ≤ C) (hw : C < 2 ^ w) (hsrc : 0 ∈ src) :
    ∃ d, safe_strcpy w dest src C = some d ∧ d (C - 1) = 0 ∧
      ∃ l, cstring d C = some l ∧ l.length ≤ C - 1 := by
  refine ⟨_, safe_strcpy_eq w dest src C hsrc, ?_, (content src).take (C - 1), ?_, ?_⟩
  · rw [sizeMinusOne_pos w C hC hw]
    simp [copied]
  · rw [sizeMinusOne_pos w C hC hw]
    exact cstring_copied dest src (C - 1) C (by omega)
  · exact List.length_take_le _ _

theorem safe_strcpy_terminated_witness :
    (1 ≤ 8 ∧ 8 < 2 ^ 64 ∧ 0 ∈ ayushman) ∧
    ∃ d, safe_strcpy 64 (fun _ => 255) ayushman 8 = some d ∧ d (8 - 1) = 0 ∧
      ∃ l, cstring d 8 = some l ∧ l.length ≤ 8 - 1 :=
  ⟨by decide, safe_strcpy_terminated 64 (fun _ => 255) ayushman 8 (by decide) (by decide)
    (by decide)⟩

/-- C2: for a capacity `C ≥ 1` and a NUL-terminated source `S`, the string in
the destination after `safe_strcpy` is `S` when `length S < C` and the first
`C - 1` characters of `S` when `length S ≥ C`. -/
theorem safe_strcpy_content (w : Nat) (dest : Mem) (src : List Byte) (C : Nat)
    (hC : 1 ≤ C) (hw : C < 2 ^ w) (hsrc : 0 ∈ src) :
    ∃ d, safe_strcpy w dest src C = some d ∧
      ((content src).length < C → cstring d C = some (content src)) ∧
      (C ≤ (content src).length → cstring d C = some ((content src).take (C - 1))) := by
  refine ⟨_, safe_strcpy_eq w dest src C hsrc, ?_, ?_⟩
  · intro hlen
    rw [sizeMinusOne_pos w C hC hw, cstring_copied dest src (C - 1) C (by omega),
      List.take_of_length_le (by omega)]
  · intro _
    rw [sizeMinusOne_pos w C hC hw, cstring_copied dest src (C - 1) C (by omega)]

theorem safe_strcpy_content_witness :
    (1 ≤ 8 ∧ 8 < 2 ^ 64 ∧ 0 ∈ ayushman) ∧
    ∃ d, safe_strcpy 64 (fun _ => 255) ayushman 8 = some d ∧
      ((content ayushman).length < 8 → cstring d 8 = some (content ayushman)) ∧
      (8 ≤ (content ayushman).length →
        cstring d 8 = some ((content ayushman).take (8 - 1))) :=
  ⟨by decide, safe_strcpy_content 64 (fun _ => 255) ayushman 8 (by decide) (by decide)
    (by decide)⟩

/-- The demo source `"Ayushman"` copied with capacities 20, 8 and 1. -/
theorem safe_strcpy_ayushman :
    (safe_strcpy 64 (fun _ => 255) ayushman 20).bind (fun d => cstring d 20)
      = some [65, 121, 117, 115, 104, 109, 97, 110] ∧
    (safe_strcpy 64 (fun _ => 255) ayushman 8).bind (fun d => cstring d 8)
      = some [65, 121, 117, 115, 104, 109, 97] ∧
    (safe_strcpy 64 (fun _ => 255) ayushman 1).bind (fun d => cstring d 1) = some [] := by
  decide

/-- For a capacity `C ≥ 1` every byte at an offset `≥ C` keeps its value. -/
theorem safe_strcpy_frame (w : Nat) (dest : Mem) (src : List Byte) (C : Nat)
    (hC : 1 ≤ C) (hw : C < 2 ^ w) (hsrc : 0 ∈ src) :
    ∃ d, safe_strcpy w dest src C = some d ∧ ∀ j, C ≤ j → d j = dest j := by
  refine ⟨_, safe_strcpy_eq w dest src C hsrc, ?_⟩
  intro j hj
  rw [sizeMinusOne_pos w C hC hw]
  have h1 : ¬ j < C - 1 := by omega
  have h2 : ¬ j = C - 1 := by omega
  simp only [copied, if_neg h1, if_neg h2]

/-- C3, at capacity 0: with a 64-bit `size_t` the bound `size - 1` is
`2 ^ 64 - 1`; `safe_strcpy(dest, "A", 0)` stores `'A'` at offset 0, null bytes
at the offsets `1 .. 2 ^ 64 - 1`, and leaves offset `2 ^ 64` alone. -/
theorem safe_strcpy_capacity_zero :
    (safe_strcpy 64 (fun _ => 255) [65, 0] 0).map
        (fun d => [d 0, d 1, d (2 ^ 64 - 1), d (2 ^ 64)])
      = some [65, 0, 0, 255] := by
  rw [safe_strcpy_eq 64 _ _ 0 (by decide), sizeMinusOne_zero]
  simp only [Option.map_some', Option.some.injEq, copied]
  have hc : content [65, 0] = [65] := by decide
  rw [hc]
  norm_num

/-- C7: copying the same NUL-terminated source twice with the same capacity
leaves the memory that one copy leaves. -/
theorem safe_strcpy_idempotent (w : Nat) (dest : Mem) (src : List Byte) (C : Nat)
    (hC : 1 ≤ C) (hw : C < 2 ^ w) (hsrc : 0 ∈ src) :
    ∃ d, safe_strcpy w dest src C = some d ∧ safe_strcpy w d src C = some d := by
  refine ⟨_, safe_strcpy_eq w dest src C hsrc, ?_⟩
  rw [safe_strcpy_eq w _ src C hsrc, sizeMinusOne_pos w C hC hw]
  congr 1
  funext j
  simp only [copied]
  split_ifs <;> rfl

theorem safe_strcpy_idempotent_witness :
    (1 ≤ 8 ∧ 8 < 2 ^ 64 ∧ 0 ∈ ayushman) ∧
    ∃ d, safe_strcpy 64 (fun _ => 255) ayushman 8 = some d ∧
      safe_strcpy 64 d ayushman 8 = some d :=
  ⟨by decide, safe_strcpy_idempotent 64 (fun _ => 255) ayushman 8 (by decide) (by decide)
    (by decide)⟩

/-- C9: for a capacity `C ≥ 1` and a source shorter than `C`, every byte from
offset `length S` to offset `C - 1` is null after `safe_strcpy`, and the first
`C` bytes are the same whatever the destination held before. -/
theorem safe_strcpy_clears (w : Nat) (dest : Mem) (src : List Byte) (C : Nat)
    (hC : 1 ≤ C) (hw : C < 2 ^ w) (hsrc : 0 ∈ src) (hlen : (content src).length < C) :
    ∃ d, safe_strcpy w dest src C = some d ∧
      (∀ i, (content src).length ≤ i → i ≤ C - 1 → d i = 0) ∧
      (∀ i, i < (content src).length → d i = (content src).getD i 0) ∧
      ∀ dest2 : Mem, ∃ d2, safe_strcpy w dest2 src C = some d2 ∧ ∀ i, i < C → d2 i = d i := by
  refine ⟨_, safe_strcpy_eq w dest src C hsrc, ?_, ?_, ?_⟩
  · intro i h1 h2
    rw [sizeMinusOne_pos w C hC hw]
    simp only [copied]
    split_ifs with h3 h4
    · exact List.getD_eq_default _ _ h1
    · rfl
    · exfalso; omega
  · intro i h1
    rw [sizeMinusOne_pos w C hC hw]
    have h2 : i < C - 1 := by omega
    simp only [copied, if_pos h2]
  · intro dest2
    refine ⟨_, safe_strcpy_eq w dest2 src C hsrc, ?_⟩
    intro i hi
    rw [sizeMinusOne_pos w C hC hw]
    simp only [copied]
    split_ifs <;> first | rfl | (exfalso; omega)

theorem safe_strcpy_clears_witness :
    (1 ≤ 20 ∧ 20 < 2 ^ 64 ∧ 0 ∈ ayushman ∧ (content ayushman).length < 20) ∧
    ∃ d, safe_strcpy 64 (fun _ => 255) ayushman 20 = some d ∧
      (∀ i, (content ayushman).length ≤ i → i ≤ 20 - 1 → d i = 0) ∧
      (∀ i, i < (content ayushman).length → d i = (content ayushman).getD i 0) ∧
      ∀ dest2 : Mem, ∃ d2, safe_strcpy 64 dest2 ayushman 20 = some d2 ∧
        ∀ i, i < 20 → d2 i = d i :=
  ⟨by decide, safe_strcpy_clears 64 (fun _ => 255) ayushman 20 (by decide) (by decide)
    (by decide) (by decide)⟩

theorem pokeAll_string_lt (m : Mem) (l : List Byte) (k : Nat) (h : k < l.length) :
    pokeAll m 0 (l ++ [0]) k = l.getD k 0 := by
  rw [pokeAll_apply]
  have h1 : 0 ≤ k ∧ k < 0 + (l ++ [0]).length := by
    simp only [List.length_append, List.length_singleton]; omega
  rw [if_pos h1, Nat.sub_zero, List.getD_append _ _ _ _ h]

theorem pokeAll_string_end (m : Mem) (l : List Byte) :
    pokeAll m 0 (l ++ [0]) l.length = 0 := by
  rw [pokeAll_apply]
  have h1 : 0 ≤ l.length ∧ l.length < 0 + (l ++ [0]).length := by
    simp only [List.length_append, List.length_singleton]; omega
  rw [if_pos h1, Nat.sub_zero, List.getD_append_right _ _ _ _ (le_refl _)]
  simp

theorem pokeAll_string_ge (m : Mem) (l : List Byte) (j : Nat) (h : l.length < j) :
    pokeAll m 0 (l ++ [0]) j = m j := by
  rw [pokeAll_apply]
  have h1 : ¬ (0 ≤ j ∧ j < 0 + (l ++ [0]).length) := by
    simp only [List.length_append, List.length_singleton]; omega
  rw [if_neg h1]

theorem strcspnAt_eq (reject l : List Byte) : ∀ (m : Mem) (i fuel : Nat),
    (∀ k, k < l.length → m (i + k) = l.getD k 0) → (∀ b ∈ l, b ≠ 0 ∧ b ∉ reject) →
    (m (i + l.length) = 0 ∨ m (i + l.length) ∈ reject) → l.length < fuel →
    strcspnAt m reject i fuel = some l.length := by
  induction l with
  | nil =>
    intro m i fuel _ _ h0 hf
    cases fuel with
    | zero => simp at hf
    | succ fuel =>
      have h0' : m i = 0 ∨ m i ∈ reject := by simpa using h0
      simp only [strcspnAt, h0', if_true, List.length_nil]
  | cons b l ih =>
    intro m i fuel hm hnz h0 hf
    cases fuel with
    | zero => simp at hf
    | succ fuel =>
      have hb : m i = b := by
        have := hm 0 (by simp)
        simpa using this
      have hbnz : ¬ (b = 0 ∨ b ∈ reject) := by
        have := hnz b (List.mem_cons_self _ _)
        tauto
      have hrec : strcspnAt m reject (i + 1) fuel = some l.length := by
        apply ih
        · intro k hk
          have := hm (k + 1) (by simpa using hk)
          rw [List.getD_cons_succ] at this
          rw [← this]
          congr 1
          omega
        · intro c hc
          exact hnz c (List.mem_cons_of_mem _ hc)
        · have e : i + 1 + l.length = i + (b :: l).length := by
            simp only [List.length_cons]; omega
          rw [e]; exact h0
        · simpa using hf
      simp only [strcspnAt, hb, hbnz, if_false, hrec, Option.map_some', List.length_cons]

/-- C6: for a capacity `C ≥ 1` and a template and arguments that render to
`R`, `safe_sprintf` returns; with `k = min (length R) (C - 1)` the first `k`
bytes of the destination are the first `k` bytes of `R`, the byte at offset `k`
is the terminator, no byte at an offset `≥ C` changes, and when `R` has no null
byte the string in the destination is the first `C - 1` bytes of `R`. -/
theorem safe_sprintf_truncates {α : Type} (fmt : Formatter α) (dest : Mem) (C : Nat)
    (format : List Byte) (args : α) (R : List Byte)
    (hC : 1 ≤ C) (hR : fmt format args = some R) :
    ∃ d, safe_sprintf fmt dest C format args = some d ∧
      (∀ k, k < min R.length (C - 1) → d k = R.getD k 0) ∧
      d (min R.length (C - 1)) = 0 ∧
      (∀ j, C ≤ j → d j = dest j) ∧
      (0 ∉ R → cstring d C = some (R.take (C - 1))) := by
  have hC0 : ¬ C = 0 := by omega
  have hlen : (R.take (C - 1)).length = min R.length (C - 1) := by
    rw [List.length_take, Nat.min_comm]
  refine ⟨pokeAll dest 0 (R.take (C - 1) ++ [0]), ?_, ?_, ?_, ?_, ?_⟩
  · simp only [safe_sprintf, vsnprintf, hR, if_neg hC0]
  · intro k hk
    rw [pokeAll_string_lt _ _ _ (by omega), getD_take _ _ _ (by omega)]
  · rw [← hlen]
    exact pokeAll_string_end _ _
  · intro j hj
    exact pokeAll_string_ge _ _ _ (by omega)
  · intro hnz
    unfold cstring
    apply cstringAt_eq
    · intro k hk
      rw [Nat.zero_add, pokeAll_string_lt _ _ _ hk]
    · intro b hb hb0
      exact hnz (hb0 ▸ List.mem_of_mem_take hb)
    · rw [Nat.zero_add]
      exact pokeAll_string_end _ _
    · omega

theorem safe_sprintf_truncates_witness :
    (1 ≤ 10 ∧ formatS hiTemplate [bo] = some [72, 105, 32, 66, 111]) ∧
    ∃ d, safe_sprintf formatS (fun _ => 255) 10 hiTemplate [bo] = some d ∧
      (∀ k, k < min [72, 105, 32, 66, 111].length (10 - 1) →
        d k = [72, 105, 32, 66, 111].getD k 0) ∧
      d (min [72, 105, 32, 66, 111].length (10 - 1)) = 0 ∧
      (∀ j, 10 ≤ j → d j = (fun _ => 255) j) ∧
      (0 ∉ [72, 105, 32, 66, 111] →
        cstring d 10 = some ([72, 105, 32, 66, 111].take (10 - 1))) :=
  ⟨by decide, safe_sprintf_truncates formatS (fun _ => 255) 10 hiTemplate [bo]
    [72, 105, 32, 66, 111] (by decide) (by decide)⟩

/-- The template `"Hi %s"` with the argument `"Bo"` and capacity 10. -/
theorem safe_sprintf_hi_bo :
    (safe_sprintf formatS (fun _ => 255) 10 hiTemplate [bo]).bind (fun d => cstring d 10)
      = some [72, 105, 32, 66, 111] := by
  decide

theorem readLine_append (k : Nat) : ∀ s : List Byte,
    (readLine k s).1 ++ (readLine k s).2 = s := by
  induction k with
  | zero => intro s; simp [readLine]
  | succ k ih =>
    intro s
    cases s with
    | nil => simp [readLine]
    | cons b s =>
      by_cases hb : b = NL
      · simp [readLine, hb]
      · simp [readLine, hb, ih s]

theorem readLine_length (k : Nat) : ∀ s : List Byte, (readLine k s).1.length ≤ k := by
  induction k with
  | zero => intro s; simp [readLine]
  | succ k ih =>
    intro s
    cases s with
    | nil => simp [readLine]
    | cons b s =>
      by_cases hb : b = NL
      · simp [readLine, hb]
      · simpa [readLine, hb] using ih s

theorem readLine_cases (k : Nat) : ∀ s : List Byte,
    NL ∉ (readLine k s).1 ∨ ∃ r, (readLine k s).1 = r ++ [NL] ∧ NL ∉ r := by
  induction k with
  | zero => intro s; left; simp [readLine]
  | succ k ih =>
    intro s
    cases s with
    | nil => left; simp [readLine]
    | cons b s =>
      by_cases hb : b = NL
      · right
        exact ⟨[], by simp [readLine, hb], by simp⟩
      · have hb2 : ¬ NL = b := fun h => hb h.symm
        rcases ih s with h | ⟨r, hr, hn⟩
        · left
          simpa [readLine, hb, hb2] using h
        · right
          refine ⟨b :: r, by simp [readLine, hb, hr], ?_⟩
          simpa [hb2] using hn

theorem readLine_maximal (k : Nat) : ∀ s : List Byte,
    (readLine k s).1.length = k ∨ (readLine k s).1.getLast? = some NL ∨
      (readLine k s).2 = [] := by
  induction k with
  | zero => intro s; left; simp [readLine]
  | succ k ih =>
    intro s
    cases s with
    | nil => right; right; simp [readLine]
    | cons b s =>
      by_cases hb : b = NL
      · right; left; simp [readLine, hb]
      · rcases ih s with h | h | h
        · left; simp [readLine, hb, h]
        · right; left
          obtain ⟨ys, hys⟩ := List.getLast?_eq_some_iff.mp h
          apply List.getLast?_eq_some_iff.mpr
          exact ⟨b :: ys, by simp [readLine, hb, hys]⟩
        · right; right; simp [readLine, hb, h]

theorem readLine_short (k : Nat) : ∀ (L tail : List Byte), NL ∉ L → k ≤ L.length →
    readLine k (L ++ NL :: tail) = (L.take k, L.drop k ++ NL :: tail) := by
  induction k with
  | zero => intro L tail _ _; simp [readLine]
  | succ k ih =>
    intro L tail hL hk
    cases L with
    | nil => simp at hk
    | cons b L =>
      have hb : ¬ b = NL := fun h => hL (by simp [h])
      have hL2 : NL ∉ L := fun h => hL (List.mem_cons_of_mem _ h)
      have := ih L tail hL2 (by simpa using hk)
      simp [readLine, hb, this]

theorem readLine_long (k : Nat) : ∀ (L tail : List Byte), NL ∉ L → L.length < k →
    readLine k (L ++ NL :: tail) = (L ++ [NL], tail) := by
  induction k with
  | zero => intro L tail _ hk; simp at hk
  | succ k ih =>
    intro L tail hL hk
    cases L with
    | nil => simp [readLine]
    | cons b L =>
      have hb : ¬ b = NL := fun h => hL (by simp [h])
      have hL2 : NL ∉ L := fun h => hL (List.mem_cons_of_mem _ h)
      have := ih L tail hL2 (by simpa using hk)
      simp [readLine, hb, this]

theorem toInt_of_lt (C : Nat) (h : C < 2 ^ 31) : toInt C = (C : Int) := by
  have h1 : C % 2 ^ 32 = C := Nat.mod_eq_of_lt (by omega)
  simp only [toInt, h1, if_pos h]

theorem toInt_toNat_le (C : Nat) : (toInt C).toNat - 1 ≤ C - 1 := by
  have h1 : C % 2 ^ 32 ≤ C := Nat.mod_le _ _
  have h2 : C % 2 ^ 32 < 2 ^ 32 := Nat.mod_lt _ (by norm_num)
  unfold toInt
  split_ifs with h
  · rw [Int.toNat_ofNat]; omega
  · have : (((C % 2 ^ 32 : Nat) : Int) - 2 ^ 32).toNat = 0 := by
      apply Int.toNat_eq_zero.mpr
      omega
    rw [this]; omega

theorem fgets_ok_eq (s : Mem) (n : Int) (stream : List Byte)
    (h : (fgets s n stream).ok = true) :
    fgets s n stream = ⟨pokeAll s 0 ((readLine (n.toNat - 1) stream).1 ++ [0]),
      (readLine (n.toNat - 1) stream).2, true⟩ := by
  unfold fgets at h ⊢
  split_ifs at h ⊢ with h1 h2
  rfl

/-- The second statement of `safe_input` on a buffer that `fgets` filled with
bytes free of NUL and of line terminators. -/
theorem strip_plain (ext cap : Nat) (m : Mem) (r : List Byte)
    (h0 : 0 ∉ r) (hnl : NL ∉ r) (hext : r.length < ext) (hcap : r.length < cap) :
    strcspn ext (pokeAll m 0 (r ++ [0])) [NL] = some r.length ∧
      cstring (poke (pokeAll m 0 (r ++ [0])) r.length 0) cap = some r ∧
      ∀ j, r.length < j → poke (pokeAll m 0 (r ++ [0])) r.length 0 j = m j := by
  have hs : strcspn ext (pokeAll m 0 (r ++ [0])) [NL] = some r.length := by
    unfold strcspn
    apply strcspnAt_eq
    · intro k hk
      rw [Nat.zero_add, pokeAll_string_lt _ _ _ hk]
    · intro b hb
      refine ⟨fun h => h0 (h ▸ hb), ?_⟩
      intro h
      rw [List.mem_singleton] at h
      exact hnl (h ▸ hb)
    · left
      rw [Nat.zero_add]
      exact pokeAll_string_end _ _
    · exact hext
  refine ⟨hs, ?_, ?_⟩
  · unfold cstring
    apply cstringAt_eq
    · intro k hk
      have hk2 : ¬ k = r.length := by omega
      rw [Nat.zero_add, poke_apply, if_neg hk2, pokeAll_string_lt _ _ _ hk]
    · intro b hb h
      exact h0 (h ▸ hb)
    · rw [Nat.zero_add, poke_apply, if_pos rfl]
    · exact hcap
  · intro j hj
    have hj2 : ¬ j = r.length := by omega
    rw [poke_apply, if_neg hj2, pokeAll_string_ge _ _ _ hj]

/-- The second statement of `safe_input` on a buffer that `fgets` filled with
bytes that end in a line terminator. -/
theorem strip_newline (ext cap : Nat) (m : Mem) (r : List Byte)
    (h0 : 0 ∉ r) (hnl : NL ∉ r) (hext : r.length < ext) (hcap : r.length < cap) :
    strcspn ext (pokeAll m 0 ((r ++ [NL]) ++ [0])) [NL] = some r.length ∧
      cstring (poke (pokeAll m 0 ((r ++ [NL]) ++ [0])) r.length 0) cap = some r ∧
      ∀ j, r.length + 1 < j → poke (pokeAll m 0 ((r ++ [NL]) ++ [0])) r.length 0 j = m j := by
  have hlt : ∀ k, k < r.length → pokeAll m 0 ((r ++ [NL]) ++ [0]) k = r.getD k 0 := by
    intro k hk
    rw [pokeAll_string_lt _ _ _ (by simp; omega), List.getD_append _ _ _ _ hk]
  have hat : pokeAll m 0 ((r ++ [NL]) ++ [0]) r.length = NL := by
    rw [pokeAll_string_lt _ _ _ (by simp),
      List.getD_append_right _ _ _ _ (le_refl _)]
    simp
  have hs : strcspn ext (pokeAll m 0 ((r ++ [NL]) ++ [0])) [NL] = some r.length := by
    unfold strcspn
    apply strcspnAt_eq
    · intro k hk
      rw [Nat.zero_add, hlt k hk]
    · intro b hb
      refine ⟨fun h => h0 (h ▸ hb), ?_⟩
      intro h
      rw [List.mem_singleton] at h
      exact hnl (h ▸ hb)
    · right
      rw [Nat.zero_add, hat]
      exact List.mem_singleton_self _
    · exact hext
  refine ⟨hs, ?_, ?_⟩
  · unfold cstring
    apply cstringAt_eq
    · intro k hk
      have hk2 : ¬ k = r.length := by omega
      rw [Nat.zero_add, poke_apply, if_neg hk2, hlt k hk]
    · intro b hb h
      exact h0 (h ▸ hb)
    · rw [Nat.zero_add, poke_apply, if_pos rfl]
    · exact hcap
  · intro j hj
    have hj2 : ¬ j = r.length := by omega
    rw [poke_apply, if_neg hj2, pokeAll_string_ge _ _ _ (by simp; omega)]

theorem safe_input_of_ok (ext : Nat) (buffer : Mem) (size : Nat) (stdin : List Byte)
    (hok : (fgets buffer (toInt size) stdin).ok = true) (k : Nat)
    (hk : strcspn ext (pokeAll buffer 0
      ((readLine ((toInt size).toNat - 1) stdin).1 ++ [0])) [NL] = some k) :
    safe_input ext buffer size stdin
      = some (poke (pokeAll buffer 0
          ((readLine ((toInt size).toNat - 1) stdin).1 ++ [0])) k 0,
        (readLine ((toInt size).toNat - 1) stdin).2) := by
  unfold safe_input
  rw [fgets_ok_eq buffer (toInt size) stdin hok]
  simp only [hk, Option.map_some']

/-- C4, at end-of-input: `fgets` returns the null pointer and leaves the
buffer as it was, `strcspn` then scans what the buffer held before; a buffer
that held `"hi"` still holds `"hi"` after `safe_input(buffer, 20)`, its first
byte is `'h'` and not the terminator. -/
theorem safe_input_eof_keeps_buffer :
    (safe_input 20 hiBuffer 20 []).map (fun r => (r.1 0, cstring r.1 20, r.2))
      = some (104, some [104, 105], []) := by
  decide

/-- C5: for a capacity `C ≥ 1`, when `fgets` succeeds, the bytes `r` taken
from the stream are the ones `fgets` reads: a prefix of the stream of at most
`C - 1` bytes with no line terminator before its last byte, which stops only
when the count handed to `fgets` is used up (`C - 1` bytes when `C` fits an
`int`), after a line terminator, or when the input ends; `rest` is the stream
`fgets` leaves.  When `r` has no null byte, `safe_input` returns with `rest`,
the buffer holds `r` without its last byte when that is a line terminator and
holds `r` otherwise, the string has no line terminator and is terminated
within the first `C` bytes, and no byte at an offset `≥ C` changes. -/
theorem safe_input_strips (ext C : Nat) (buffer : Mem) (stdin : List Byte)
    (hC : 1 ≤ C) (hext : C ≤ ext) (hok : (fgets buffer (toInt C) stdin).ok = true) :
    ∃ r rest, stdin = r ++ rest ∧ rest = (fgets buffer (toInt C) stdin).stream ∧
      r.length ≤ C - 1 ∧ NL ∉ r.dropLast ∧
      (r.length = (toInt C).toNat - 1 ∨ r.getLast? = some NL ∨ rest = []) ∧
      (C < 2 ^ 31 → r.length = C - 1 ∨ r.getLast? = some NL ∨ rest = []) ∧
      (0 ∉ r → ∃ d, safe_input ext buffer C stdin = some (d, rest) ∧
        (r.getLast? = some NL → cstring d C = some r.dropLast) ∧
        (r.getLast? ≠ some NL → cstring d C = some r) ∧
        (∃ l, cstring d C = some l ∧ NL ∉ l ∧ l.length < C) ∧
        ∀ j, C ≤ j → d j = buffer j) := by
  have hlen := readLine_length ((toInt C).toNat - 1) stdin
  have hle := toInt_toNat_le C
  have hmax := readLine_maximal ((toInt C).toNat - 1) stdin
  refine ⟨(readLine ((toInt C).toNat - 1) stdin).1, (readLine ((toInt C).toNat - 1) stdin).2,
    (readLine_append _ _).symm, ?_, by omega, ?_, hmax, ?_, ?_⟩
  · rw [fgets_ok_eq buffer (toInt C) stdin hok]
  · rcases readLine_cases ((toInt C).toNat - 1) stdin with h | ⟨r, hr, hn⟩
    · exact fun hm => h (List.mem_of_mem_dropLast hm)
    · rw [hr, List.dropLast_concat]; exact hn
  · intro hint
    have hk : (toInt C).toNat - 1 = C - 1 := by
      rw [toInt_of_lt C hint, Int.toNat_ofNat]
    rcases hmax with h | h | h
    · left; rw [h, hk]
    · right; left; exact h
    · right; right; exact h
  · intro h0
    rcases readLine_cases ((toInt C).toNat - 1) stdin with h | ⟨r, hr, hn⟩
    · obtain ⟨hs, hc, hfr⟩ := strip_plain ext C buffer _ h0 h (by omega) (by omega)
      refine ⟨_, safe_input_of_ok ext buffer C stdin hok _ hs, ?_, ?_, ?_, ?_⟩
      · intro hl
        exact absurd (List.mem_of_getLast?_eq_some hl) h
      · intro _; exact hc
      · exact ⟨_, hc, h, by omega⟩
      · intro j hj; exact hfr j (by omega)
    · have hrl : r.length + 1 ≤ C - 1 := by
        have : (readLine ((toInt C).toNat - 1) stdin).1.length = r.length + 1 := by
          rw [hr]; simp
        omega
      have h0r : 0 ∉ r := by
        intro hm; apply h0; rw [hr]; exact List.mem_append_left _ hm
      have hs0 := safe_input_of_ok ext buffer C stdin hok
      rw [hr] at hs0 ⊢
      obtain ⟨hs, hc, hfr⟩ := strip_newline ext C buffer r h0r hn (by omega) (by omega)
      refine ⟨_, hs0 _ hs, ?_, ?_, ?_, ?_⟩
      · intro _; rw [List.dropLast_concat]; exact hc
      · intro hl; exact absurd (List.getLast?_concat r) hl
      · exact ⟨_, hc, hn, by omega⟩
      · intro j hj; exact hfr j (by omega)

theorem safe_input_strips_witness :
    (1 ≤ 20 ∧ 20 ≤ 20 ∧ (fgets hiBuffer (toInt 20) [65, 66, 10, 67]).ok = true) ∧
    ∃ r rest, [65, 66, 10, 67] = r ++ rest ∧
      rest = (fgets hiBuffer (toInt 20) [65, 66, 10, 67]).stream ∧
      r.length ≤ 20 - 1 ∧ NL ∉ r.dropLast ∧
      (r.length = (toInt 20).toNat - 1 ∨ r.getLast? = some NL ∨ rest = []) ∧
      (20 < 2 ^ 31 → r.length = 20 - 1 ∨ r.getLast? = some NL ∨ rest = []) ∧
      (0 ∉ r → ∃ d, safe_input 20 hiBuffer 20 [65, 66, 10, 67] = some (d, rest) ∧
        (r.getLast? = some NL → cstring d 20 = some r.dropLast) ∧
        (r.getLast? ≠ some NL → cstring d 20 = some r) ∧
        (∃ l, cstring d 20 = some l ∧ NL ∉ l ∧ l.length < 20) ∧
        ∀ j, 20 ≤ j → d j = hiBuffer j) :=
  ⟨by decide, safe_input_strips 20 20 hiBuffer [65, 66, 10, 67] (by decide) (by decide)
    (by decide)⟩

/-- The calls `safe_input(buffer, 20)` on the input `"AB\nC"`, which leaves
`"AB"` in the buffer and `"C"` in the input; on the input `"AB"` that ends
without a line terminator, which leaves `"AB"`; and `safe_input(buffer, 3)` on
`"ABCD\n"`, which leaves `"AB"` and keeps `"CD\n"` in the input. -/
theorem safe_input_ab :
    (safe_input 20 hiBuffer 20 [65, 66, 10, 67]).map (fun r => (cstring r.1 20, r.2))
      = some (some [65, 66], [67]) ∧
    (safe_input 20 hiBuffer 20 [65, 66]).map (fun r => (cstring r.1 20, r.2))
      = some (some [65, 66], []) ∧
    (safe_input 20 hiBuffer 3 [65, 66, 67, 68, 10]).map (fun r => (cstring r.1 3, r.2))
      = some (some [65, 66], [67, 68, 10]) := by
  decide

theorem fgets_ok_of_int (buffer : Mem) (C : Nat) (stdin : List Byte)
    (hC : 1 ≤ C) (hint : C < 2 ^ 31) (hne : stdin ≠ []) :
    (fgets buffer (toInt C) stdin).ok = true ∧ (toInt C).toNat - 1 = C - 1 := by
  rw [toInt_of_lt C hint]
  have h1 : ¬ ((C : Int) ≤ 0) := by omega
  have h2 : ¬ (1 < (C : Int) ∧ stdin = []) := fun h => hne h.2
  refine ⟨?_, by rw [Int.toNat_ofNat]⟩
  simp only [fgets, if_neg h1, if_neg h2]

/-- One call of `safe_input` on a line that does not fit the buffer. -/
theorem safe_input_line_short (ext C : Nat) (buffer : Mem) (L tail : List Byte)
    (hC : 2 ≤ C) (hint : C < 2 ^ 31) (hext : C ≤ ext)
    (h0 : 0 ∉ L) (hnl : NL ∉ L) (hlen : C - 1 ≤ L.length) :
    ∃ d, safe_input ext buffer C (L ++ NL :: tail)
        = some (d, L.drop (C - 1) ++ NL :: tail) ∧
      cstring d C = some (L.take (C - 1)) := by
  obtain ⟨hok, hk⟩ := fgets_ok_of_int buffer C (L ++ NL :: tail) (by omega) hint (by simp)
  have hs0 := safe_input_of_ok ext buffer C (L ++ NL :: tail) hok
  rw [hk, readLine_short (C - 1) L tail hnl hlen] at hs0
  have hl : (L.take (C - 1)).length = C - 1 := by
    rw [List.length_take]; omega
  obtain ⟨hs, hc, _⟩ := strip_plain ext C buffer (L.take (C - 1))
    (fun h => h0 (List.mem_of_mem_take h)) (fun h => hnl (List.mem_of_mem_take h))
    (by omega) (by omega)
  exact ⟨_, hs0 _ hs, hc⟩

/-- One call of `safe_input` on a line that fits the buffer. -/
theorem safe_input_line_long (ext C : Nat) (buffer : Mem) (L tail : List Byte)
    (hC : 2 ≤ C) (hint : C < 2 ^ 31) (hext : C ≤ ext)
    (h0 : 0 ∉ L) (hnl : NL ∉ L) (hlen : L.length < C - 1) :
    ∃ d, safe_input ext buffer C (L ++ NL :: tail) = some (d, tail) ∧
      cstring d C = some L := by
  obtain ⟨hok, hk⟩ := fgets_ok_of_int buffer C (L ++ NL :: tail) (by omega) hint (by simp)
  have hs0 := safe_input_of_ok ext buffer C (L ++ NL :: tail) hok
  rw [hk, readLine_long (C - 1) L tail hnl hlen] at hs0
  obtain ⟨hs, hc, _⟩ := strip_newline ext C buffer L h0 hnl (by omega) (by omega)
  exact ⟨_, hs0 _ hs, hc⟩

theorem take_consumed (r rest : List Byte) :
    (r ++ rest).take ((r ++ rest).length - rest.length) = r := by
  rw [List.length_append, Nat.add_sub_cancel, List.take_left']
  rfl

/-- The calls of `inputLine` put the line together again. -/
theorem inputLine_eq (ext C : Nat) (tail : List Byte)
    (hC : 2 ≤ C) (hint : C < 2 ^ 31) (hext : C ≤ ext) :
    ∀ (fuel : Nat) (buffer : Mem) (L : List Byte), 0 ∉ L → NL ∉ L → L.length < fuel →
      inputLine ext C fuel buffer (L ++ NL :: tail) = some (L, tail) := by
  intro fuel
  induction fuel with
  | zero => intro _ L _ _ hf; simp at hf
  | succ fuel ih =>
    intro buffer L h0 hnl hf
    by_cases hlen : C - 1 ≤ L.length
    · obtain ⟨d, hd, hc⟩ := safe_input_line_short ext C buffer L tail hC hint hext h0 hnl hlen
      have hcons : (L ++ NL :: tail).take
          ((L ++ NL :: tail).length - (L.drop (C - 1) ++ NL :: tail).length)
          = L.take (C - 1) := by
        have e : L ++ NL :: tail = L.take (C - 1) ++ (L.drop (C - 1) ++ NL :: tail) := by
          rw [← List.append_assoc, List.take_append_drop]
        rw [e, take_consumed]
      have hlast : ¬ (L.take (C - 1)).getLast? = some NL :=
        fun h => hnl (List.mem_of_mem_take (List.mem_of_getLast?_eq_some h))
      have hrec := ih d (L.drop (C - 1)) (fun h => h0 (List.mem_of_mem_drop h))
        (fun h => hnl (List.mem_of_mem_drop h)) (by rw [List.length_drop]; omega)
      simp only [inputLine, hd, hc, hcons, if_neg hlast, hrec, Option.map_some',
        List.take_append_drop]
    · obtain ⟨d, hd, hc⟩ := safe_input_line_long ext C buffer L tail hC hint hext h0 hnl
        (by omega)
      have hcons : (L ++ NL :: tail).take ((L ++ NL :: tail).length - tail.length)
          = L ++ [NL] := by
        have e : L ++ NL :: tail = (L ++ [NL]) ++ tail := by simp
        rw [e, take_consumed]
      simp only [inputLine, hd, hc, hcons, List.getLast?_concat, if_true]

/-- C10, for capacities an `int` can hold: with `2 ≤ C ≤ INT_MAX` and a line
`L` without null byte or line terminator, of `C - 1` bytes or more and followed
by a line terminator, one call of `safe_input` returns with the first `C - 1`
bytes of `L` as its string and leaves the rest of `L` and the line terminator
in the input; calls repeated until one consumes the line terminator return
`L` when their strings are put end to end, and `length L + 1` calls are
enough. -/
theorem safe_input_chunks (ext C : Nat) (buffer : Mem) (L tail : List Byte)
    (hC : 2 ≤ C) (hint : C < 2 ^ 31) (hext : C ≤ ext)
    (h0 : 0 ∉ L) (hnl : NL ∉ L) (hlen : C - 1 ≤ L.length) :
    (∃ d, safe_input ext buffer C (L ++ NL :: tail)
        = some (d, L.drop (C - 1) ++ NL :: tail) ∧
      cstring d C = some (L.take (C - 1))) ∧
    ∀ fuel, L.length < fuel →
      inputLine ext C fuel buffer (L ++ NL :: tail) = some (L, tail) :=
  ⟨safe_input_line_short ext C buffer L tail hC hint hext h0 hnl hlen,
   fun fuel hf => inputLine_eq ext C tail hC hint hext fuel buffer L h0 hnl hf⟩

theorem safe_input_chunks_witness :
    (2 ≤ 3 ∧ 3 < 2 ^ 31 ∧ 3 ≤ 20 ∧ 0 ∉ [65, 66, 67, 68] ∧ NL ∉ [65, 66, 67, 68] ∧
      3 - 1 ≤ [65, 66, 67, 68].length) ∧
    (∃ d, safe_input 20 hiBuffer 3 ([65, 66, 67, 68] ++ NL :: [69])
        = some (d, [65, 66, 67, 68].drop (3 - 1) ++ NL :: [69]) ∧
      cstring d 3 = some ([65, 66, 67, 68].take (3 - 1))) ∧
    ∀ fuel, [65, 66, 67, 68].length < fuel →
      inputLine 20 3 fuel hiBuffer ([65, 66, 67, 68] ++ NL :: [69])
        = some ([65, 66, 67, 68], [69]) :=
  ⟨by decide, safe_input_chunks 20 3 hiBuffer [65, 66, 67, 68] [69] (by decide) (by decide)
    (by decide) (by decide) (by decide) (by decide)⟩

/-- What `safe_input` does when `fgets` gets a count that is not positive. -/
theorem safe_input_of_nonpos (ext : Nat) (buffer : Mem) (size : Nat) (stdin : List Byte)
    (hn : toInt size ≤ 0) (hb : buffer 0 = 0) (hext : 0 < ext) :
    safe_input ext buffer size stdin = some (poke buffer 0 0, stdin) := by
  have hf : fgets buffer (toInt size) stdin = ⟨buffer, stdin, false⟩ := by
    simp only [fgets, if_pos hn]
  have hs : strcspn ext buffer [NL] = some 0 := by
    cases ext with
    | zero => simp at hext
    | succ e => simp only [strcspn, strcspnAt, hb, true_or, if_true]
  unfold safe_input
  rw [hf]
  simp only [hs, Option.map_some']

/-- At `C = 2 ^ 31` a call of `safe_input` takes nothing from a line of
`2 ^ 31 - 1` bytes. -/
theorem safe_input_takes_nothing (L : List Byte) (hL : L.length = 2 ^ 31 - 1) :
    ¬ ∃ d, safe_input (2 ^ 31) (fun _ => 0) (2 ^ 31) (L ++ NL :: [])
        = some (d, L.drop (2 ^ 31 - 1) ++ NL :: []) ∧
      cstring d (2 ^ 31) = some (L.take (2 ^ 31 - 1)) := by
  rintro ⟨d, hd, _⟩
  have hn : toInt (2 ^ 31) ≤ 0 := by decide
  rw [safe_input_of_nonpos (2 ^ 31) (fun _ => 0) (2 ^ 31) _ hn rfl (by norm_num)] at hd
  have h2 := congrArg (fun r => r.2.length) (Option.some.inj hd)
  simp only [List.length_append, List.length_cons, List.length_nil,
    List.length_drop, hL] at h2
  omega

/-- C10 as stated fails at `C = 2 ^ 31`: the capacity becomes the `int`
`-2 ^ 31`, `fgets` reads nothing, and a line of `2 ^ 31 - 1` bytes stays in the
input whole. -/
theorem safe_input_chunks_int_overflow :
    (2 ≤ 2 ^ 31 ∧ 0 ∉ List.replicate (2 ^ 31 - 1) 65 ∧ NL ∉ List.replicate (2 ^ 31 - 1) 65 ∧
      2 ^ 31 - 1 ≤ (List.replicate (2 ^ 31 - 1) 65).length) ∧
    ¬ ∃ d, safe_input (2 ^ 31) (fun _ => 0) (2 ^ 31)
          (List.replicate (2 ^ 31 - 1) 65 ++ NL :: [])
        = some (d, (List.replicate (2 ^ 31 - 1) 65).drop (2 ^ 31 - 1) ++ NL :: []) ∧
      cstring d (2 ^ 31) = some ((List.replicate (2 ^ 31 - 1) 65).take (2 ^ 31 - 1)) := by
  refine ⟨⟨by norm_num, ?_, ?_, ?_⟩, ?_⟩
  · intro h; have := List.eq_of_mem_replicate h; omega
  · intro h; have := List.eq_of_mem_replicate h; simp [NL] at this
  · exact le_of_eq (List.length_replicate _ _).symm
  · exact safe_input_takes_nothing _ (List.length_replicate _ _)

end SecureC

namespace SecureC.BanUnsafe

/-! ## Theorems on the barrier -/

theorem BLOCK_USE_OF_neverCompiles (stdc : Nat) (x : String) :
    neverCompiles (BLOCK_USE_OF stdc x) = true := by
  unfold BLOCK_USE_OF
  split_ifs <;> rfl

theorem BLOCK_USE_OF_mentions (stdc : Nat) (x : String) :
    mentions (BLOCK_USE_OF stdc x) x := by
  unfold BLOCK_USE_OF mentions
  split_ifs
  · exact ⟨.str x, by simp, List.infix_refl _⟩
  · refine ⟨.word ("BLOCK_" ++ x ++ "_is_unsafe"), by simp, ?_⟩
    exact ⟨"BLOCK_".data, "_is_unsafe".data, by simp [Tok.text, String.data_append]⟩

/-- C8, with the other macros of the header set apart: under either branch
of the `#if` and whatever `<assert.h>` holds, a call of one of the five banned
names with any arguments expands to a declaration that never compiles (a static
assertion on `0`, or a `typedef` of a `char` array of size `-1`) one token of
which contains the banned name; and the names the header rewrites are exactly
the five, its helper `BLOCK_USE_OF`, its include guard `BAN_UNSAFE_H` and,
under C11, the macros of the `<assert.h>` it includes. -/
theorem barrier_expansion (lib : AssertH) (stdc : Nat) (name : String)
    (args : List String) :
    (name ∈ banned →
      ∃ ts, expandCall lib stdc name args = .tokens ts ∧ neverCompiles ts = true ∧
        mentions ts name) ∧
    (expandCall lib stdc name args ≠ .notMacro ↔
      name ∈ banned ∨ name = "BLOCK_USE_OF" ∨ name = "BAN_UNSAFE_H" ∨
        (201112 ≤ stdc ∧ lib name ≠ none)) := by
  constructor
  · intro h
    simp only [banned, List.mem_cons, List.mem_singleton, List.not_mem_nil, or_false] at h
    rcases h with rfl | rfl | rfl | rfl | rfl
    · exact ⟨BLOCK_USE_OF stdc "strcpy", by simp [expandCall, strcpy],
        BLOCK_USE_OF_neverCompiles _ _, BLOCK_USE_OF_mentions _ _⟩
    · exact ⟨BLOCK_USE_OF stdc "gets", by simp [expandCall, gets],
        BLOCK_USE_OF_neverCompiles _ _, BLOCK_USE_OF_mentions _ _⟩
    · exact ⟨BLOCK_USE_OF stdc "sprintf", by simp [expandCall, sprintf],
        BLOCK_USE_OF_neverCompiles _ _, BLOCK_USE_OF_mentions _ _⟩
    · exact ⟨BLOCK_USE_OF stdc "strcat", by simp [expandCall, strcat],
        BLOCK_USE_OF_neverCompiles _ _, BLOCK_USE_OF_mentions _ _⟩
    · exact ⟨BLOCK_USE_OF stdc "strncpy", by simp [expandCall, strncpy],
        BLOCK_USE_OF_neverCompiles _ _, BLOCK_USE_OF_mentions _ _⟩
  · simp only [banned, List.mem_cons, List.mem_singleton, List.not_mem_nil, or_false]
    by_cases h1 : name = "BAN_UNSAFE_H"
    · simp [expandCall, h1]
    by_cases h2 : name = "BLOCK_USE_OF"
    · subst h2
      cases args with
      | nil => simp [expandCall]
      | cons x xs =>
        cases xs with
        | nil => simp [expandCall]
        | cons y ys => simp [expandCall]
    by_cases h3 : name = "strcpy"
    · simp [expandCall, h3]
    by_cases h4 : name = "gets"
    · simp [expandCall, h4]
    by_cases h5 : name = "sprintf"
    · simp [expandCall, h5]
    by_cases h6 : name = "strcat"
    · simp [expandCall, h6]
    by_cases h7 : name = "strncpy"
    · simp [expandCall, h7]
    simp only [expandCall, if_neg h1, if_neg h2, if_neg h3, if_neg h4, if_neg h5, if_neg h6,
      if_neg h7, h1, h2, h3, h4, h5, h6, h7, false_or]
    by_cases hc : 201112 ≤ stdc
    · cases hl : lib name with
      | none => simp [hc]
      | some body => simp [hc]
    · simp [hc]

theorem barrier_expansion_witness :
    "strcpy" ∈ banned ∧
    ∃ ts, expandCall stdAssertH 201112 "strcpy" ["dest", "src"] = .tokens ts ∧
      neverCompiles ts = true ∧ mentions ts "strcpy" :=
  ⟨by decide, (barrier_expansion stdAssertH 201112 "strcpy" ["dest", "src"]).1 (by decide)⟩

/-- C8 as stated fails: none of `BLOCK_USE_OF`, `BAN_UNSAFE_H`, `assert` and
`static_assert` is one of the five banned names, and once the header is
included under C11 a call of each is rewritten: the first two by macros of the
header, the last two by the macros of the `<assert.h>` it includes. -/
theorem barrier_rewrites_helper :
    ("BLOCK_USE_OF" ∉ banned ∧
      expandCall stdAssertH 201112 "BLOCK_USE_OF" ["foo"] = .tokens
        [.word "_Static_assert", .word "(", .word "0", .word ",", .str "foo",
         .str " is unsafe. Use a safer alternative.", .word ")"]) ∧
    ("BAN_UNSAFE_H" ∉ banned ∧
      expandCall stdAssertH 201112 "BAN_UNSAFE_H" [] = .tokens [.word "(", .word ")"]) ∧
    ("assert" ∉ banned ∧
      expandCall stdAssertH 201112 "assert" ["x"] = .tokens
        [.word "(", .word "(", .word "void", .word ")", .word "0", .word ")"]) ∧
    ("static_assert" ∉ banned ∧
      expandCall stdAssertH 201112 "static_assert" ["1", "m"] = .tokens
        [.word "_Static_assert", .word "(", .word "1", .word ",", .word "m", .word ")"]) := by
  decide

/-- Calls the header leaves alone or rejects: before C11 `<assert.h>` is not
included and `assert` stays; a name that is no macro stays; `BLOCK_USE_OF()`
has one empty argument; `BLOCK_USE_OF(a, b)` is an error. -/
theorem barrier_other_calls :
    expandCall stdAssertH 199901 "assert" ["x"] = .notMacro ∧
    expandCall stdAssertH 201112 "memcpy" ["d", "s", "n"] = .notMacro ∧
    expandCall stdAssertH 201112 "BLOCK_USE_OF" [] = .tokens
      [.word "_Static_assert", .word "(", .word "0", .word ",", .str "",
       .str " is unsafe. Use a safer alternative.", .word ")"] ∧
    expandCall stdAssertH 199901 "BLOCK_USE_OF" [] = .tokens
      [.word "typedef", .word "char", .word "BLOCK__is_unsafe",
       .word "[", .word "-", .word "1", .word "]"] ∧
    expandCall stdAssertH 201112 "BLOCK_USE_OF" ["a", "b"] = .illFormed := by
  decide

end SecureC.BanUnsafe
